import Mathlib

/-!
Verification of the core data layer of the ai-studio-data-browser
repository: the mock database (permissions, schema catalog, row store,
query engine) and the WHERE-clause validator, shallowly embedded from the
TypeScript source.  The mutable global table store is modelled by explicit
state passing (a `TablesData` association list); JS strings are modelled
by Lean strings operating on their character lists.
-/

namespace DataBrowser

/-- `PermissionLevel` enum from types.ts (values read / write / admin). -/
inductive PermissionLevel where
  | READ
  | WRITE
  | ADMIN
deriving DecidableEq

/-- `User` from types.ts; `group_id` is optional in the source. -/
structure User where
  id : Nat
  email : String
  is_active : Bool
  group_id : Option Nat
  group_name : Option String
deriving DecidableEq

/-- `SchemaPermission` from types.ts. -/
structure SchemaPermission where
  group_id : Nat
  schema_name : String
  permission : PermissionLevel
deriving DecidableEq

/-- A JS field value as stored in a row (only the shapes the mock data
uses); `toStr` models the JS `String(val)` conversion. -/
inductive Value where
  | str (s : String)
  | int (n : Int)
  | bool (b : Bool)
deriving DecidableEq

def Value.toStr : Value → String
  | .str s => s
  | .int n => toString n
  | .bool b => cond b "true" "false"

/-- A row: an ordered mapping from column name to value (a JS object). -/
abbrev Row := List (String × Value)

/-- The `TABLES_DATA` record: keys "schema.table" to row sequences, in
insertion order (JS object with string keys). -/
abbrev TablesData := List (String × List Row)

/-- `TableInfo` from types.ts. -/
structure TableInfo where
  schema_name : String
  table_name : String
  full_name : String
  row_count : Nat
  column_count : Nat
deriving DecidableEq

/-- `QueryResult` from types.ts. -/
structure QueryResult where
  data : List Row
  row_count : Nat
  total_rows : Nat
  page : Nat
  page_size : Nat
  total_pages : Nat
deriving DecidableEq

/-- `PAGE_SIZE` from types.ts. -/
def PAGE_SIZE : Nat := 50

/-- `MOCK_USERS` from the mock database module. -/
def MOCK_USERS : List User :=
  [ ⟨1, "admin@example.com", true, some 1, some "Admins"⟩,
    ⟨2, "analyst@example.com", true, some 2, some "Analysts"⟩,
    ⟨3, "user@example.com", true, some 3, some "Viewers"⟩ ]

/-- `MOCK_PERMISSIONS` from the mock database module. -/
def MOCK_PERMISSIONS : List SchemaPermission :=
  [ ⟨1, "public", .WRITE⟩,
    ⟨1, "sales", .WRITE⟩,
    ⟨1, "hr", .WRITE⟩,
    ⟨2, "public", .READ⟩,
    ⟨2, "sales", .READ⟩,
    ⟨3, "public", .READ⟩ ]

/-! ### Character-list helpers modelling JS string operations -/

/-- `p` is an initial run of `l` (JS `startsWith`, char by char). -/
def leadsWith : List Char → List Char → Bool
  | [], _ => true
  | _ :: _, [] => false
  | p :: ps, c :: cs => p == c && leadsWith ps cs

/-- `pat` occurs contiguously somewhere in `l` (JS `includes`). -/
def containsPat (pat : List Char) : List Char → Bool
  | [] => leadsWith pat []
  | c :: rest => leadsWith pat (c :: rest) || containsPat pat rest

/-- JS `split "."` on a character list. -/
def splitOnDot : List Char → List (List Char)
  | [] => [[]]
  | c :: rest =>
    let r := splitOnDot rest
    if c = '.' then [] :: r
    else
      match r with
      | [] => [[c]]
      | h :: t => (c :: h) :: t

/-- JS `toLowerCase` character list of a string (ASCII model). -/
def lowerChars (s : String) : List Char := s.data.map Char.toLower

/-- JS regex word character `[A-Za-z0-9_]`. -/
def isWordChar (c : Char) : Bool :=
  ('A' ≤ c && c ≤ 'Z') || ('a' ≤ c && c ≤ 'z') || ('0' ≤ c && c ≤ '9') || c == '_'

/-- `w` matches the upper-case keyword `kw` exactly, case-insensitively
(ASCII model of the regex `i` flag). -/
def fullCI : List Char → List Char → Bool
  | [], [] => true
  | [], _ :: _ => false
  | _ :: _, [] => false
  | k :: ks, c :: cs => c.toUpper == k && fullCI ks cs

/-- The keyword `kw` matches an initial run of `l`, case-insensitively. -/
def matchCI : List Char → List Char → Bool
  | [], _ => true
  | _ :: _, [] => false
  | k :: ks, c :: cs => c.toUpper == k && matchCI ks cs

/-- `kw` matches at the head of `l` and the character right after the
match (if any) is not a word character (the closing regex boundary). -/
def wordAt (kw l : List Char) : Bool :=
  matchCI kw l &&
    match l.drop kw.length with
    | [] => true
    | c :: _ => !isWordChar c

/-- Scan of `l` for a whole-word, case-insensitive occurrence of `kw`;
`prev` is the character just before `l` (none at the start). -/
def hasWordCIAux (kw : List Char) (prev : Option Char) : List Char → Bool
  | [] => boundaryOk prev && wordAt kw []
  | c :: rest => (boundaryOk prev && wordAt kw (c :: rest)) || hasWordCIAux kw (some c) rest
where
  boundaryOk : Option Char → Bool
    | none => true
    | some c => !isWordChar c

/-- Model of the JS test of the regex new RegExp("\\b" + kw + "\\b", "i")
against `l`, for an upper-case alphabetic keyword `kw`. -/
def hasWordCI (kw l : List Char) : Bool := hasWordCIAux kw none l

/-- Lexicographic (code-unit) comparison of character lists: the order JS
`Array.prototype.sort` uses on strings. -/
def lexLeb : List Char → List Char → Bool
  | [], _ => true
  | _ :: _, [] => false
  | a :: as, b :: bs => if a < b then true else if b < a then false else lexLeb as bs

/-- The sorting relation of JS default string sort. -/
def strLe (a b : String) : Prop := lexLeb a.data b.data = true

instance : DecidableRel strLe := fun a b => Bool.decEq (lexLeb a.data b.data) true

/-- First-occurrence deduplication with the set of already seen elements
carried along: the order-preserving semantics of `Array.from(new Set(xs))`. -/
def dedupFirstAux (seen : List String) : List String → List String
  | [] => []
  | a :: l => if a ∈ seen then dedupFirstAux seen l else a :: dedupFirstAux (a :: seen) l

def dedupFirst (l : List String) : List String := dedupFirstAux [] l

/-! ### The row store as explicit state -/

/-- Read `store[key]` (first matching key; JS object keys are unique). -/
def storeGet : TablesData → String → Option (List Row)
  | [], _ => none
  | (k, v) :: rest, key => if k == key then some v else storeGet rest key

/-- JS assignment `store[key] = v`: replace in place if the key exists,
otherwise append (insertion order). -/
def storeSet : TablesData → String → List Row → TablesData
  | [], key, v => [(key, v)]
  | (k, w) :: rest, key, v =>
    if k == key then (key, v) :: rest else (k, w) :: storeSet rest key v

/-- JS `arr.slice start stop` for nonnegative indices. -/
def jsSlice {α} (l : List α) (start stop : Nat) : List α :=
  (l.drop start).take (stop - start)

/-- `Math.ceil (a / b)` for natural `a` and positive `b`. -/
def jsCeil (a b : Nat) : Nat := (a + b - 1) / b

/-! ### MockDB operations -/

/-- `MockDB.getAccessibleSchemas` (the permission store is a parameter;
in the source it is the module constant `MOCK_PERMISSIONS`).  The guard
`if (!user.group_id)` is JS falsiness: absent or zero group id. -/
def getAccessibleSchemas (perms : List SchemaPermission) (user : User) : List String :=
  match user.group_id with
  | none => []
  | some g =>
    if g = 0 then []
    else
      let ps := perms.filter (fun p => p.group_id == g)
      List.insertionSort strLe (dedupFirst (ps.map (·.schema_name)))

/-- `MockDB.getTables`: keys starting with schema ++ "." mapped through
JS `key.split(".")[1]` (the segment between the first and second dot). -/
def getTables (store : TablesData) (schemaName : String) : List String :=
  ((store.map Prod.fst).filter
      (fun key => leadsWith (schemaName ++ ".").data key.data)).map
    (fun key => String.mk ((splitOnDot key.data).getD 1 []))

/-- `MockDB.getTableInfo`. -/
def getTableInfo (store : TablesData) (schemaName tableName : String) : TableInfo :=
  let fullKey := schemaName ++ "." ++ tableName
  let data := (storeGet store fullKey).getD []
  { schema_name := schemaName
    table_name := tableName
    full_name := fullKey
    row_count := data.length
    column_count := match data with | [] => 0 | r :: _ => r.length }

/-- The filtering stage of `MockDB.getData`: the guard `if (whereClause)`
is JS falsiness (absent or empty string); a row is kept when some field
value, stringified and lower-cased, contains the lower-cased clause. -/
def rowMatchesBool (lowerClause : List Char) (r : Row) : Bool :=
  (r.map Prod.snd).any (fun v => containsPat lowerClause (lowerChars v.toStr))

def keptRows (store : TablesData) (schemaName tableName : String)
    (whereClause : Option String) : List Row :=
  let data := (storeGet store (schemaName ++ "." ++ tableName)).getD []
  match whereClause with
  | none => data
  | some c => if c == "" then data else data.filter (rowMatchesBool (lowerChars c))

/-- `MockDB.getData`. -/
def getData (store : TablesData) (schemaName tableName : String)
    (page : Nat) (whereClause : Option String) : QueryResult :=
  let data := keptRows store schemaName tableName whereClause
  let total_rows := data.length
  let total_pages := jsCeil total_rows PAGE_SIZE
  let start := (page - 1) * PAGE_SIZE
  let slicedData := jsSlice data start (start + PAGE_SIZE)
  { data := slicedData
    row_count := slicedData.length
    total_rows := total_rows
    page := page
    page_size := PAGE_SIZE
    total_pages := total_pages }

/-- `MockDB.updateData`: unconditionally assigns the key and returns
true (the returned pair is the result together with the new store). -/
def updateData (store : TablesData) (schemaName tableName : String)
    (newData : List Row) : Bool × TablesData :=
  (true, storeSet store (schemaName ++ "." ++ tableName) newData)

/-- `MockDB.hasWritePermission` (permission store as a parameter, as for
`getAccessibleSchemas`). -/
def hasWritePermission (perms : List SchemaPermission) (user : User)
    (schemaName : String) : Bool :=
  match user.group_id with
  | none => false
  | some g =>
    if g = 0 then false
    else
      match perms.find? (fun p => p.group_id == g && p.schema_name == schemaName) with
      | some p => p.permission == .WRITE || p.permission == .ADMIN
      | none => false

/-! ### The WHERE-clause validator (utils module) -/

def FORBIDDEN_SQL_KEYWORDS : List String :=
  ["DELETE", "UPDATE", "INSERT", "DROP", "ALTER", "EXEC", "EXECUTE", "CREATE", "TRUNCATE"]

def SQL_COMMENT_PATTERNS : List String := [";", "--", "/*"]

/-- The two distinct rejection messages of `validateWhereClause`. -/
inductive FilterError where
  | commentPattern (pat : String)
  | forbiddenKeyword
deriving DecidableEq

structure VResult where
  isValid : Bool
  error : Option FilterError
deriving DecidableEq

/-- `validateWhereClause` from the utils module: empty accepted, then the
comment patterns checked in order as substrings, then each keyword as a
case-insensitive whole word. -/
def validateWhereClause (clause : String) : VResult :=
  if clause == "" then ⟨true, none⟩
  else
    match SQL_COMMENT_PATTERNS.find? (fun pat => containsPat pat.data clause.data) with
    | some pat => ⟨false, some (.commentPattern pat)⟩
    | none =>
      if FORBIDDEN_SQL_KEYWORDS.any (fun kw => hasWordCI kw.data clause.data) then
        ⟨false, some .forbiddenKeyword⟩
      else ⟨true, none⟩

/-! ### Spec-side declarative predicates -/

/-- The boundary condition before a match: the character just before the
match (the last of `a`, or `prev` when `a` is empty) is not a word
character; at the very start of the text there is no condition. -/
def BoundaryB (prev : Option Char) (a : List Char) : Prop :=
  match a.getLast? with
  | some c => isWordChar c = false
  | none =>
    match prev with
    | some c => isWordChar c = false
    | none => True

/-- Declaratively: `l` contains a case-insensitive occurrence of the
upper-case keyword `kw` delimited by non-word characters (or the ends of
the text). -/
def WordOccurs (kw l : List Char) : Prop :=
  ∃ a w b, l = a ++ w ++ b ∧ fullCI kw w = true ∧ BoundaryB none a ∧
    (∀ c, b.head? = some c → isWordChar c = false)

/-- Declaratively: the row has some field whose stringified, lower-cased
value contains the lower-cased filter text as a substring. -/
def RowKeeps (clause : String) (r : Row) : Prop :=
  ∃ f ∈ r, ∃ a b, lowerChars (Value.toStr f.2) = a ++ lowerChars clause ++ b

/-- No dot occurs in the character list. -/
def NoDot (l : List Char) : Prop := ∀ c ∈ l, c ≠ '.'

instance (l : List Char) : Decidable (NoDot l) :=
  List.decidableBAll (fun c => c ≠ '.') l

/-! ### Lemmas about the string helpers -/

theorem leadsWith_iff (p l : List Char) : leadsWith p l = true ↔ ∃ r, l = p ++ r := by
  induction p generalizing l with
  | nil => simp [leadsWith]
  | cons x xs ih =>
    cases l with
    | nil => simp [leadsWith]
    | cons c cs =>
      simp only [leadsWith, Bool.and_eq_true, beq_iff_eq, ih, List.cons_append,
        List.cons.injEq]
      constructor
      · rintro ⟨rfl, r, rfl⟩; exact ⟨r, rfl, rfl⟩
      · rintro ⟨r, rfl, rfl⟩; exact ⟨rfl, r, rfl⟩

theorem containsPat_iff (pat l : List Char) :
    containsPat pat l = true ↔ ∃ a b, l = a ++ pat ++ b := by
  induction l with
  | nil =>
    simp only [containsPat, leadsWith_iff]
    constructor
    · rintro ⟨r, h⟩
      exact ⟨[], r, by simpa using h⟩
    · rintro ⟨a, b, h⟩
      have h' : a ++ (pat ++ b) = [] := by simpa [List.append_assoc] using h.symm
      obtain ⟨rfl, h2⟩ := List.append_eq_nil.mp h'
      obtain ⟨rfl, rfl⟩ := List.append_eq_nil.mp h2
      exact ⟨[], rfl⟩
  | cons c cs ih =>
    simp only [containsPat, Bool.or_eq_true, leadsWith_iff, ih]
    constructor
    · rintro (⟨r, h⟩ | ⟨a, b, h⟩)
      · exact ⟨[], r, by simpa using h⟩
      · exact ⟨c :: a, b, by simp [h]⟩
    · rintro ⟨a, b, h⟩
      cases a with
      | nil => exact Or.inl ⟨b, by simpa using h⟩
      | cons a0 as =>
        rw [List.cons_append, List.cons_append, List.cons.injEq] at h
        exact Or.inr ⟨as, b, h.2⟩

theorem fullCI_length {kw w : List Char} (h : fullCI kw w = true) : w.length = kw.length := by
  induction kw generalizing w with
  | nil => cases w with
    | nil => rfl
    | cons c cs => simp [fullCI] at h
  | cons k ks ih =>
    cases w with
    | nil => simp [fullCI] at h
    | cons c cs =>
      simp only [fullCI, Bool.and_eq_true] at h
      simp [ih h.2]

theorem matchCI_iff (kw l : List Char) :
    matchCI kw l = true ↔ ∃ w r, l = w ++ r ∧ fullCI kw w = true := by
  induction kw generalizing l with
  | nil =>
    exact ⟨fun _ => ⟨[], l, rfl, rfl⟩, fun _ => rfl⟩
  | cons k ks ih =>
    cases l with
    | nil =>
      constructor
      · intro h
        simp [matchCI] at h
      · rintro ⟨w, r, h, hf⟩
        obtain ⟨rfl, rfl⟩ := List.append_eq_nil.mp h.symm
        simp [fullCI] at hf
    | cons c cs =>
      simp only [matchCI, Bool.and_eq_true, beq_iff_eq, ih]
      constructor
      · rintro ⟨hc, w, r, rfl, hf⟩
        exact ⟨c :: w, r, rfl, by simp [fullCI, hc, hf]⟩
      · rintro ⟨w, r, h, hf⟩
        cases w with
        | nil => simp [fullCI] at hf
        | cons a as =>
          rw [List.cons_append, List.cons.injEq] at h
          obtain ⟨rfl, rfl⟩ := h
          simp only [fullCI, Bool.and_eq_true, beq_iff_eq] at hf
          exact ⟨hf.1, as, r, rfl, hf.2⟩

theorem wordAt_iff (kw l : List Char) :
    wordAt kw l = true ↔
      ∃ w b, l = w ++ b ∧ fullCI kw w = true ∧
        (∀ c, b.head? = some c → isWordChar c = false) := by
  simp only [wordAt, Bool.and_eq_true, matchCI_iff]
  constructor
  · rintro ⟨⟨w, r, rfl, hf⟩, hb⟩
    refine ⟨w, r, rfl, hf, fun c hc => ?_⟩
    have hd : (w ++ r).drop kw.length = r := by
      rw [← fullCI_length hf, List.drop_left]
    rw [hd] at hb
    cases r with
    | nil => simp at hc
    | cons c0 cs =>
      simp only [List.head?_cons, Option.some.injEq] at hc
      subst hc
      simpa using hb
  · rintro ⟨w, b, rfl, hf, hb⟩
    have hd : (w ++ b).drop kw.length = b := by
      rw [← fullCI_length hf, List.drop_left]
    refine ⟨⟨w, b, rfl, hf⟩, ?_⟩
    rw [hd]
    cases b with
    | nil => simp
    | cons c0 cs => simpa using hb c0 rfl

theorem boundaryB_cons (prev : Option Char) (c : Char) (a : List Char) :
    BoundaryB prev (c :: a) ↔ BoundaryB (some c) a := by
  unfold BoundaryB
  cases a with
  | nil => simp
  | cons d ds =>
    rw [List.getLast?_cons_cons]
    cases hl : (d :: ds).getLast? with
    | none => simp at hl
    | some x => exact Iff.rfl

theorem hasWordCIAux_iff (kw : List Char) (prev : Option Char) (l : List Char) :
    hasWordCIAux kw prev l = true ↔
      ∃ a w b, l = a ++ w ++ b ∧ fullCI kw w = true ∧ BoundaryB prev a ∧
        (∀ c, b.head? = some c → isWordChar c = false) := by
  induction l generalizing prev with
  | nil =>
    simp only [hasWordCIAux, Bool.and_eq_true, wordAt_iff]
    constructor
    · rintro ⟨hp, w, b, h, hf, hb⟩
      obtain ⟨rfl, rfl⟩ := List.append_eq_nil.mp h.symm
      refine ⟨[], [], [], rfl, hf, ?_, hb⟩
      unfold BoundaryB
      cases prev with
      | none => simp
      | some c =>
        simp only [List.getLast?_nil]
        cases hpc : isWordChar c with
        | false => rfl
        | true => simp [hasWordCIAux.boundaryOk, hpc] at hp
    · rintro ⟨a, w, b, h, hf, hba, hb⟩
      have h' : a ++ (w ++ b) = [] := by simpa [List.append_assoc] using h.symm
      obtain ⟨rfl, h2⟩ := List.append_eq_nil.mp h'
      obtain ⟨rfl, rfl⟩ := List.append_eq_nil.mp h2
      refine ⟨?_, [], [], rfl, hf, fun c hc => by simp at hc⟩
      unfold BoundaryB at hba
      cases prev with
      | none => simp [hasWordCIAux.boundaryOk]
      | some c => simpa [hasWordCIAux.boundaryOk] using hba
  | cons c cs ih =>
    simp only [hasWordCIAux, Bool.or_eq_true, Bool.and_eq_true, wordAt_iff, ih]
    constructor
    · rintro (⟨hp, w, b, h, hf, hb⟩ | ⟨a, w, b, h, hf, hba, hb⟩)
      · refine ⟨[], w, b, by simpa using h, hf, ?_, hb⟩
        unfold BoundaryB
        cases prev with
        | none => simp
        | some d =>
          simp only [List.getLast?_nil]
          cases hpc : isWordChar d with
          | false => rfl
          | true => simp [hasWordCIAux.boundaryOk, hpc] at hp
      · exact ⟨c :: a, w, b, by simp [h], hf, (boundaryB_cons prev c a).mpr hba, hb⟩
    · rintro ⟨a, w, b, h, hf, hba, hb⟩
      cases a with
      | nil =>
        simp only [List.nil_append] at h
        refine Or.inl ⟨?_, w, b, h, hf, hb⟩
        unfold BoundaryB at hba
        cases prev with
        | none => simp [hasWordCIAux.boundaryOk]
        | some d => simpa [hasWordCIAux.boundaryOk] using hba
      | cons a0 as =>
        rw [List.cons_append, List.cons_append, List.cons.injEq] at h
        obtain ⟨rfl, h2⟩ := h
        exact Or.inr ⟨as, w, b, by simpa using h2, hf, (boundaryB_cons prev _ as).mp hba, hb⟩

theorem hasWordCI_iff (kw l : List Char) :
    hasWordCI kw l = true ↔ WordOccurs kw l := by
  unfold hasWordCI WordOccurs
  exact hasWordCIAux_iff kw none l

/-! ### Lemmas about the sorting order -/

theorem lexLeb_total (a b : List Char) : lexLeb a b = true ∨ lexLeb b a = true := by
  induction a generalizing b with
  | nil => exact Or.inl rfl
  | cons x xs ih =>
    cases b with
    | nil => exact Or.inr rfl
    | cons y ys =>
      rcases lt_trichotomy x y with h | h | h
      · simp [lexLeb, h]
      · subst h
        rcases ih ys with h2 | h2 <;> simp [lexLeb, h2, lt_irrefl]
      · simp [lexLeb, h, not_lt_of_gt h]

theorem lexLeb_trans {a b c : List Char} (hab : lexLeb a b = true)
    (hbc : lexLeb b c = true) : lexLeb a c = true := by
  induction a generalizing b c with
  | nil => rfl
  | cons x xs ih =>
    cases b with
    | nil => simp [lexLeb] at hab
    | cons y ys =>
      cases c with
      | nil => simp [lexLeb] at hbc
      | cons z zs =>
        simp only [lexLeb] at hab hbc ⊢
        rcases lt_trichotomy x y with hxy | hxy | hxy
        · rcases lt_trichotomy y z with hyz | hyz | hyz
          · simp [lt_trans hxy hyz]
          · subst hyz; simp [hxy]
          · simp [hyz, not_lt_of_gt hyz] at hbc
        · subst hxy
          rcases lt_trichotomy x z with hyz | hyz | hyz
          · simp [hyz]
          · subst hyz
            simp only [lt_irrefl, if_false] at hab hbc ⊢
            exact ih hab hbc
          · simp [hyz, not_lt_of_gt hyz] at hbc
        · simp [hxy, not_lt_of_gt hxy] at hab

instance : IsTotal String strLe := ⟨fun a b => lexLeb_total a.data b.data⟩

instance : IsTrans String strLe := ⟨fun _ _ _ => lexLeb_trans⟩

theorem lexLeb_iff_not_lex (a b : List Char) :
    lexLeb a b = true ↔ ¬ List.Lex (· < ·) b a := by
  induction a generalizing b with
  | nil =>
    refine ⟨fun _ hl => ?_, fun _ => rfl⟩
    cases hl
  | cons x xs ih =>
    cases b with
    | nil =>
      simp only [lexLeb, Bool.false_eq_true, false_iff, not_not]
      exact List.Lex.nil
    | cons y ys =>
      simp only [lexLeb]
      rcases lt_trichotomy x y with h | h | h
      · simp only [h, if_true, true_iff]
        intro hl
        cases hl with
        | rel h2 => exact absurd (lt_trans h h2) (lt_irrefl x)
        | cons h2 => exact absurd h (lt_irrefl x)
      · subst h
        simp only [lt_irrefl, if_false, ih]
        constructor
        · intro hn hl
          cases hl with
          | rel h2 => exact absurd h2 (lt_irrefl x)
          | cons h2 => exact hn h2
        · intro hn hl
          exact hn (List.Lex.cons hl)
      · simp only [not_lt_of_gt h, if_true, if_false, h, Bool.false_eq_true, false_iff, not_not]
        exact List.Lex.rel h

theorem strLe_iff_le (a b : String) : strLe a b ↔ a ≤ b := by
  unfold strLe
  rw [lexLeb_iff_not_lex, ← not_lt]
  apply not_congr
  exact String.lt_iff_toList_lt.symm

/-! ### Lemmas about deduplication -/

theorem mem_dedupFirstAux (seen l : List String) (x : String) :
    x ∈ dedupFirstAux seen l ↔ x ∈ l ∧ x ∉ seen := by
  induction l generalizing seen with
  | nil => simp [dedupFirstAux]
  | cons a as ih =>
    by_cases ha : a ∈ seen
    · simp only [dedupFirstAux, if_pos ha, ih, List.mem_cons]
      constructor
      · rintro ⟨h1, h2⟩; exact ⟨Or.inr h1, h2⟩
      · rintro ⟨h1 | h1, h2⟩
        · subst h1; exact absurd ha h2
        · exact ⟨h1, h2⟩
    · simp only [dedupFirstAux, if_neg ha, List.mem_cons, ih, List.mem_cons]
      constructor
      · rintro (rfl | ⟨h1, h2⟩)
        · exact ⟨Or.inl rfl, ha⟩
        · exact ⟨Or.inr h1, fun hx => h2 (Or.inr hx)⟩
      · rintro ⟨rfl | h1, h2⟩
        · exact Or.inl rfl
        · by_cases hx : x = a
          · exact Or.inl hx
          · exact Or.inr ⟨h1, fun hs => by
              rcases hs with h | h
              · exact hx h
              · exact h2 h⟩

theorem nodup_dedupFirstAux (seen l : List String) : (dedupFirstAux seen l).Nodup := by
  induction l generalizing seen with
  | nil => exact List.nodup_nil
  | cons a as ih =>
    by_cases ha : a ∈ seen
    · simpa [dedupFirstAux, if_pos ha] using ih seen
    · rw [dedupFirstAux, if_neg ha]
      refine List.nodup_cons.mpr ⟨?_, ih (a :: seen)⟩
      intro hmem
      exact ((mem_dedupFirstAux _ _ _).mp hmem).2 (List.mem_cons_self a seen)

theorem mem_dedupFirst (l : List String) (x : String) : x ∈ dedupFirst l ↔ x ∈ l := by
  simp [dedupFirst, mem_dedupFirstAux]

theorem nodup_dedupFirst (l : List String) : (dedupFirst l).Nodup :=
  nodup_dedupFirstAux [] l

/-! ### Lemmas about the store -/

theorem storeGet_storeSet_self (store : TablesData) (key : String) (v : List Row) :
    storeGet (storeSet store key v) key = some v := by
  induction store with
  | nil => simp [storeSet, storeGet]
  | cons kv rest ih =>
    obtain ⟨k, w⟩ := kv
    by_cases h : k = key
    · simp [storeSet, storeGet, h]
    · simp [storeSet, storeGet, h, ih]

/-! ### Lemmas about splitting keys -/

theorem splitOnDot_noDot {l : List Char} (h : NoDot l) : splitOnDot l = [l] := by
  induction l with
  | nil => rfl
  | cons c cs ih =>
    have hc : c ≠ '.' := h c (List.mem_cons_self c cs)
    have hcs : NoDot cs := fun d hd => h d (List.mem_cons_of_mem c hd)
    simp [splitOnDot, hc, ih hcs]

theorem splitOnDot_append_dot {a : List Char} (b : List Char) (h : NoDot a) :
    splitOnDot (a ++ '.' :: b) = a :: splitOnDot b := by
  induction a with
  | nil => simp [splitOnDot]
  | cons c cs ih =>
    have hc : c ≠ '.' := h c (List.mem_cons_self c cs)
    have hcs : NoDot cs := fun d hd => h d (List.mem_cons_of_mem c hd)
    rw [List.cons_append, splitOnDot]
    simp only [ih hcs, hc, if_false]

theorem leadsWith_append (p q : List Char) : leadsWith p (p ++ q) = true := by
  induction p with
  | nil => rfl
  | cons c cs ih => simp [leadsWith, ih]

/-! ### First-match decomposition of find? -/

theorem find?_eq_some_decomp {α : Type} (p : α → Bool) (l : List α) (a : α) :
    l.find? p = some a ↔
      ∃ l₁ l₂, l = l₁ ++ a :: l₂ ∧ (∀ x ∈ l₁, p x = false) ∧ p a = true := by
  induction l with
  | nil =>
    simp only [List.find?_nil]
    constructor
    · intro h; cases h
    · rintro ⟨l₁, l₂, h, -, -⟩
      cases l₁ <;> simp at h
  | cons x xs ih =>
    cases hp : p x with
    | true =>
      rw [List.find?_cons_of_pos _ hp]
      constructor
      · intro h
        injection h with h
        subst h
        exact ⟨[], xs, rfl, by simp, hp⟩
      · rintro ⟨l₁, l₂, h, hl₁, ha⟩
        cases l₁ with
        | nil =>
          simp only [List.nil_append, List.cons.injEq] at h
          rw [h.1]
        | cons y ys =>
          rw [List.cons_append, List.cons.injEq] at h
          obtain ⟨rfl, -⟩ := h
          have hx := hl₁ x (List.mem_cons_self _ _)
          rw [hp] at hx
          cases hx
    | false =>
      have hp' : ¬ p x = true := by simp [hp]
      rw [List.find?_cons_of_neg _ hp', ih]
      constructor
      · rintro ⟨l₁, l₂, rfl, hl₁, ha⟩
        refine ⟨x :: l₁, l₂, rfl, ?_, ha⟩
        intro z hz
        rcases List.mem_cons.mp hz with rfl | hz
        · exact hp
        · exact hl₁ z hz
      · rintro ⟨l₁, l₂, h, hl₁, ha⟩
        cases l₁ with
        | nil =>
          simp only [List.nil_append, List.cons.injEq] at h
          obtain ⟨rfl, rfl⟩ := h
          rw [hp] at ha
          cases ha
        | cons y ys =>
          rw [List.cons_append, List.cons.injEq] at h
          obtain ⟨rfl, h2⟩ := h
          exact ⟨ys, l₂, h2, fun z hz => hl₁ z (List.mem_cons_of_mem _ hz), ha⟩

/-! ### The row filter agrees with its declarative description -/

theorem rowMatchesBool_iff (clause : String) (r : Row) :
    rowMatchesBool (lowerChars clause) r = true ↔ RowKeeps clause r := by
  unfold rowMatchesBool RowKeeps
  rw [List.any_eq_true]
  constructor
  · rintro ⟨v, hv, hc⟩
    obtain ⟨f, hf, rfl⟩ := List.mem_map.mp hv
    exact ⟨f, hf, (containsPat_iff _ _).mp hc⟩
  · rintro ⟨f, hf, a, b, hab⟩
    exact ⟨f.2, List.mem_map.mpr ⟨f, hf, rfl⟩, (containsPat_iff _ _).mpr ⟨a, b, hab⟩⟩

instance (clause : String) (r : Row) : Decidable (RowKeeps clause r) :=
  decidable_of_iff (rowMatchesBool (lowerChars clause) r = true) (rowMatchesBool_iff clause r)

theorem decide_rowKeeps (clause : String) (r : Row) :
    decide (RowKeeps clause r) = rowMatchesBool (lowerChars clause) r := by
  cases hb : rowMatchesBool (lowerChars clause) r with
  | false =>
    have : ¬ RowKeeps clause r := fun hk => by
      rw [(rowMatchesBool_iff clause r).mpr hk] at hb
      cases hb
    simp [this]
  | true =>
    have : RowKeeps clause r := (rowMatchesBool_iff clause r).mp hb
    simp [this]

/-! ### First matching permission record -/

theorem first_match_iff (perms : List SchemaPermission) (g : Nat) (s : String)
    (P : SchemaPermission → Prop) :
    (∃ l₁ p l₂, perms = l₁ ++ p :: l₂ ∧
        (∀ q ∈ l₁, ¬(q.group_id = g ∧ q.schema_name = s)) ∧
        p.group_id = g ∧ p.schema_name = s ∧ P p) ↔
      (∃ p, perms.find? (fun q => q.group_id == g && q.schema_name == s) = some p ∧
        p.group_id = g ∧ p.schema_name = s ∧ P p) := by
  constructor
  · rintro ⟨l₁, p, l₂, rfl, hl₁, hpg, hps, hP⟩
    refine ⟨p, (find?_eq_some_decomp _ _ _).mpr ⟨l₁, l₂, rfl, ?_, ?_⟩, hpg, hps, hP⟩
    · intro q hq
      rw [Bool.eq_false_iff]
      simp only [ne_eq, Bool.and_eq_true, beq_iff_eq]
      exact hl₁ q hq
    · simp [hpg, hps]
  · rintro ⟨p, hf, hpg, hps, hP⟩
    obtain ⟨l₁, l₂, rfl, hl₁, -⟩ := (find?_eq_some_decomp _ _ _).mp hf
    refine ⟨l₁, p, l₂, rfl, ?_, hpg, hps, hP⟩
    intro q hq
    have hfq := hl₁ q hq
    rw [Bool.eq_false_iff] at hfq
    simp only [ne_eq, Bool.and_eq_true, beq_iff_eq] at hfq
    exact hfq

/-! ### Concrete fixtures used by counterexamples and witnesses -/

/-- The second mock user (group 2, whose only permissions are READ). -/
def analystUser : User := ⟨2, "analyst@example.com", true, some 2, some "Analysts"⟩

/-- A store holding one row in sales.orders. -/
def c1Store : TablesData := [("sales.orders", [[("order_id", Value.int 1000)]])]

/-- A store whose single key has a dot inside the table-name part. -/
def c8Store : TablesData := [("s.a.b", [])]

/-- A store with one table of one row and two columns. -/
def c9Store : TablesData := [("hr.employees", [[("id", Value.int 1), ("name", Value.str "John")]])]

/-! ### Claims -/

/-- C1 counterexample: the claim says Replace (updateData) fails with
Forbidden and leaves the rows unchanged when CanWrite (hasWritePermission)
is false.  On the code, a group-2 user has no write permission on sales,
yet updateData on sales.orders returns true and replaces the stored row
sequence. -/
theorem C1_updateData_counterexample :
    hasWritePermission MOCK_PERMISSIONS analystUser "sales" = false ∧
    (updateData c1Store "sales" "orders" []).1 = true ∧
    storeGet (updateData c1Store "sales" "orders" []).2 "sales.orders" = some [] ∧
    storeGet c1Store "sales.orders" ≠ some [] :=
  ⟨by decide, rfl, by decide, by decide⟩

/-- C1 (amended): updateData performs no permission check at all: for
every store, schema, table and row sequence it returns true and replaces
the stored row sequence under the key schema ++ "." ++ table, regardless
of any caller; hasWritePermission is consulted only by the UI to show or
hide the import control. -/
theorem C1_updateData_replace_unconditional :
    ∀ (store : TablesData) (schemaName tableName : String) (rows : List Row),
      (updateData store schemaName tableName rows).1 = true ∧
      storeGet (updateData store schemaName tableName rows).2
          (schemaName ++ "." ++ tableName) = some rows :=
  fun store s t rows => ⟨rfl, storeGet_storeSet_self store (s ++ "." ++ t) rows⟩

/-- C6: Replace (updateData) followed immediately by Query (getData) on
the same schema and table with page 1 and no filter returns exactly the
first 50 elements of the new rows, with total_rows the full length. -/
theorem C6_replace_query_roundtrip :
    ∀ (store : TablesData) (schemaName tableName : String) (rows : List Row),
      (getData (updateData store schemaName tableName rows).2
          schemaName tableName 1 none).data = rows.take 50 ∧
      (getData (updateData store schemaName tableName rows).2
          schemaName tableName 1 none).total_rows = rows.length := by
  intro store s t rows
  have hget : storeGet (updateData store s t rows).2 (s ++ "." ++ t) = some rows :=
    storeGet_storeSet_self store (s ++ "." ++ t) rows
  unfold getData keptRows
  rw [hget]
  constructor
  · show jsSlice rows ((1 - 1) * PAGE_SIZE) ((1 - 1) * PAGE_SIZE + PAGE_SIZE) = rows.take 50
    simp [jsSlice, PAGE_SIZE]
  · rfl

/-- C8 counterexample: the claim says TablesIn (getTables) strips the
prefix schema ++ "." from each matching Row Store key.  For the stored
key "s.a.b" (= "s" ++ "." ++ "a.b") the code returns the second
dot-separated segment "a", not the stripped remainder "a.b". -/
theorem C8_getTables_counterexample :
    ("s.a.b" : String) = "s" ++ "." ++ "a.b" ∧
    getTables c8Store "s" = ["a"] ∧
    ("a.b" : String) ∉ getTables c8Store "s" :=
  ⟨by decide, by decide, by decide⟩

/-- C8 (amended): getTables returns, in storage order, JS
key.split(".")[1] of each Row Store key starting with schema ++ "."; when
neither the schema name nor the remainder after the prefix contains a
dot, that segment is exactly the prefix-stripped remainder, so every
stored key schema ++ "." ++ rest with dot-free schema and rest
contributes rest to the result. -/
theorem C8_getTables_amended :
    ∀ (store : TablesData) (schemaName rest : String) (rows : List Row),
      NoDot schemaName.data → NoDot rest.data →
      String.mk ((splitOnDot (schemaName ++ "." ++ rest).data).getD 1 []) = rest ∧
      ((schemaName ++ "." ++ rest, rows) ∈ store → rest ∈ getTables store schemaName) := by
  intro store s rest rows hs hrest
  have hdata : (s ++ "." ++ rest).data = s.data ++ '.' :: rest.data := by
    simp [String.data_append]
  have hsplit : splitOnDot (s ++ "." ++ rest).data = s.data :: [rest.data] := by
    rw [hdata, splitOnDot_append_dot rest.data hs, splitOnDot_noDot hrest]
  have hseg : String.mk ((splitOnDot (s ++ "." ++ rest).data).getD 1 []) = rest := by
    rw [hsplit]
    rfl
  refine ⟨hseg, fun hmem => ?_⟩
  unfold getTables
  rw [← hseg]
  apply List.mem_map_of_mem
  rw [List.mem_filter]
  constructor
  · exact List.mem_map_of_mem Prod.fst hmem
  · have hd2 : (s ++ "." ++ rest).data = (s ++ ".").data ++ rest.data := by
      simp [String.data_append]
    rw [hd2]
    exact leadsWith_append _ _

/-- C8 amended witness at schema "sales", table "orders". -/
theorem C8_getTables_amended_witness :
    NoDot ("sales" : String).data ∧ NoDot ("orders" : String).data ∧
      ("orders" : String) ∈ getTables [("sales.orders", [])] "sales" :=
  ⟨by decide, by decide,
    (C8_getTables_amended [("sales.orders", [])] "sales" "orders" []
      (by decide) (by decide)).2 (by decide)⟩

/-- C9: InfoFor (getTableInfo) always succeeds: it returns a TableInfo
whose full_name is schema ++ "." ++ table; when the key is absent both
counts are zero, and when present row_count is the stored length and
column_count is the field count of the first row (0 for an empty
table). -/
theorem C9_getTableInfo_total :
    ∀ (store : TablesData) (schemaName tableName : String),
      (getTableInfo store schemaName tableName).full_name
          = schemaName ++ "." ++ tableName ∧
      (storeGet store (schemaName ++ "." ++ tableName) = none →
        (getTableInfo store schemaName tableName).row_count = 0 ∧
        (getTableInfo store schemaName tableName).column_count = 0) ∧
      (∀ d, storeGet store (schemaName ++ "." ++ tableName) = some d →
        (getTableInfo store schemaName tableName).row_count = d.length ∧
        (getTableInfo store schemaName tableName).column_count
            = match d with | [] => 0 | r :: _ => r.length) := by
  intro store s t
  refine ⟨rfl, fun h => ?_, fun d h => ?_⟩
  · simp [getTableInfo, h]
  · simp only [getTableInfo, h, Option.getD_some]
    exact ⟨trivial, trivial⟩

/-- C9 witness: a present one-row two-column table and an absent one. -/
theorem C9_getTableInfo_total_witness :
    storeGet c9Store ("hr" ++ "." ++ "employees")
        = some [[("id", Value.int 1), ("name", Value.str "John")]] ∧
      (getTableInfo c9Store "hr" "employees").row_count = 1 ∧
      (getTableInfo c9Store "hr" "employees").column_count = 2 :=
  ⟨by decide,
    (C9_getTableInfo_total c9Store "hr" "employees").2.2
      [[("id", Value.int 1), ("name", Value.str "John")]] (by decide)⟩

/-- C10: the code's falsy test on group_id treats group 0 as having no
group: a user with group_id 0 gets no accessible schemas and no write
permission, even when permission records with group_id 0 exist. -/
theorem C10_group_zero_no_access :
    ∀ (perms : List SchemaPermission) (user : User) (schemaName : String),
      user.group_id = some 0 →
      getAccessibleSchemas perms user = [] ∧
      hasWritePermission perms user schemaName = false := by
  intro perms u s h
  unfold getAccessibleSchemas hasWritePermission
  rw [h]
  exact ⟨rfl, rfl⟩

/-- C10 witness: a group-0 user and a store that does hold a WRITE
record for group 0. -/
theorem C10_group_zero_no_access_witness :
    (⟨4, "zero@example.com", true, some 0, none⟩ : User).group_id = some 0 ∧
      getAccessibleSchemas [⟨0, "sales", .WRITE⟩]
          ⟨4, "zero@example.com", true, some 0, none⟩ = [] ∧
      hasWritePermission [⟨0, "sales", .WRITE⟩]
          ⟨4, "zero@example.com", true, some 0, none⟩ "sales" = false :=
  ⟨rfl, C10_group_zero_no_access [⟨0, "sales", .WRITE⟩]
    ⟨4, "zero@example.com", true, some 0, none⟩ "sales" rfl⟩

/-- C2: CanWrite (hasWritePermission) is true iff the user has a group
(in the code's sense: a nonzero group_id, cf. C10) and the first
permission record in storage order matching (group, schema) has level
WRITE or ADMIN; it is false when the user has no group, when no matching
record exists, or when the first matching record has level READ (all
covered by the iff). -/
theorem C2_hasWritePermission_iff :
    ∀ (perms : List SchemaPermission) (user : User) (schemaName : String),
      hasWritePermission perms user schemaName = true ↔
        ∃ g, user.group_id = some g ∧ g ≠ 0 ∧
          ∃ l₁ p l₂, perms = l₁ ++ p :: l₂ ∧
            (∀ q ∈ l₁, ¬(q.group_id = g ∧ q.schema_name = schemaName)) ∧
            p.group_id = g ∧ p.schema_name = schemaName ∧
            (p.permission = PermissionLevel.WRITE ∨ p.permission = PermissionLevel.ADMIN) := by
  intro perms u s
  unfold hasWritePermission
  cases hg : u.group_id with
  | none => simp
  | some g =>
    by_cases h0 : g = 0
    · subst h0
      simp
    · dsimp only
      rw [if_neg h0]
      have hiff := first_match_iff perms g s
        (fun p => p.permission = PermissionLevel.WRITE ∨ p.permission = PermissionLevel.ADMIN)
      cases hf : perms.find? (fun q => q.group_id == g && q.schema_name == s) with
      | none =>
        simp only [Bool.false_eq_true, false_iff]
        rintro ⟨g', hg', hg0, hdec⟩
        rw [Option.some.injEq] at hg'
        subst hg'
        obtain ⟨p, hp, -⟩ := hiff.mp hdec
        rw [hf] at hp
        cases hp
      | some p =>
        constructor
        · intro hlv
          simp only [Bool.or_eq_true, beq_iff_eq] at hlv
          obtain ⟨l₁, l₂, hd, hl₁, hpred⟩ := (find?_eq_some_decomp _ _ _).mp hf
          simp only [Bool.and_eq_true, beq_iff_eq] at hpred
          refine ⟨g, rfl, h0, hiff.mpr ⟨p, hf, hpred.1, hpred.2, hlv⟩⟩
        · rintro ⟨g', hg', hg0, hdec⟩
          rw [Option.some.injEq] at hg'
          subst hg'
          obtain ⟨p', hp', -, -, hlv⟩ := hiff.mp hdec
          rw [hf, Option.some.injEq] at hp'
          subst hp'
          simp only [Bool.or_eq_true, beq_iff_eq]
          exact hlv

/-- C3: for page ≥ 1, Query (getData) returns total_pages equal to the
ceiling of total_rows / 50 (stated both as the code's formula and by the
two defining ceiling inequalities), with total_pages = 0 iff
total_rows = 0; the returned rows are the filtered sequence sliced at
the half-open window from (page-1)*50 to page*50; and any page beyond
total_pages yields an empty slice with row_count 0 while total_rows is
still the full filtered count. -/
theorem C3_getData_pagination :
    ∀ (store : TablesData) (schemaName tableName : String) (page : Nat)
      (whereClause : Option String),
      1 ≤ page →
      (getData store schemaName tableName page whereClause).total_pages
          = jsCeil (getData store schemaName tableName page whereClause).total_rows PAGE_SIZE ∧
      ((getData store schemaName tableName page whereClause).total_pages = 0 ↔
        (getData store schemaName tableName page whereClause).total_rows = 0) ∧
      (getData store schemaName tableName page whereClause).total_rows
          ≤ PAGE_SIZE * (getData store schemaName tableName page whereClause).total_pages ∧
      PAGE_SIZE * (getData store schemaName tableName page whereClause).total_pages
          < (getData store schemaName tableName page whereClause).total_rows + PAGE_SIZE ∧
      (getData store schemaName tableName page whereClause).data
          = jsSlice (keptRows store schemaName tableName whereClause)
              ((page - 1) * PAGE_SIZE) (page * PAGE_SIZE) ∧
      (page > (getData store schemaName tableName page whereClause).total_pages →
        (getData store schemaName tableName page whereClause).data = [] ∧
        (getData store schemaName tableName page whereClause).row_count = 0 ∧
        (getData store schemaName tableName page whereClause).total_rows
            = (keptRows store schemaName tableName whereClause).length) := by
  intro store s t page wc hp
  have e1 : (getData store s t page wc).total_rows = (keptRows store s t wc).length := rfl
  have e2 : (getData store s t page wc).total_pages
      = jsCeil (keptRows store s t wc).length PAGE_SIZE := rfl
  have e3 : (getData store s t page wc).data
      = jsSlice (keptRows store s t wc) ((page - 1) * PAGE_SIZE)
          ((page - 1) * PAGE_SIZE + PAGE_SIZE) := rfl
  have e4 : (getData store s t page wc).row_count
      = ((getData store s t page wc).data).length := rfl
  refine ⟨by rw [e2, e1], ?_, ?_, ?_, ?_, ?_⟩
  · rw [e2, e1]
    unfold jsCeil PAGE_SIZE
    omega
  · rw [e2, e1]
    unfold jsCeil PAGE_SIZE
    omega
  · rw [e2, e1]
    unfold jsCeil PAGE_SIZE
    omega
  · rw [e3]
    unfold jsSlice
    have harith : (page - 1) * PAGE_SIZE + PAGE_SIZE - (page - 1) * PAGE_SIZE
        = page * PAGE_SIZE - (page - 1) * PAGE_SIZE := by
      unfold PAGE_SIZE
      omega
    rw [harith]
  · intro hgt
    rw [e2] at hgt
    have hlen : (keptRows store s t wc).length ≤ (page - 1) * PAGE_SIZE := by
      unfold jsCeil at hgt
      unfold PAGE_SIZE at hgt ⊢
      omega
    have hnil : (keptRows store s t wc).drop ((page - 1) * PAGE_SIZE) = [] :=
      List.drop_eq_nil_of_le hlen
    have hdata : (getData store s t page wc).data = [] := by
      rw [e3]
      unfold jsSlice
      rw [hnil, List.take_nil]
    exact ⟨hdata, by rw [e4, hdata]; rfl, e1⟩

/-- C3 witness at a concrete two-row store, page 1, no filter. -/
theorem C3_getData_pagination_witness :
    1 ≤ 1 ∧
      ((getData c9Store "hr" "employees" 1 none).total_pages
          = jsCeil (getData c9Store "hr" "employees" 1 none).total_rows PAGE_SIZE ∧
       ((getData c9Store "hr" "employees" 1 none).total_pages = 0 ↔
         (getData c9Store "hr" "employees" 1 none).total_rows = 0) ∧
       (getData c9Store "hr" "employees" 1 none).total_rows
           ≤ PAGE_SIZE * (getData c9Store "hr" "employees" 1 none).total_pages ∧
       PAGE_SIZE * (getData c9Store "hr" "employees" 1 none).total_pages
           < (getData c9Store "hr" "employees" 1 none).total_rows + PAGE_SIZE ∧
       (getData c9Store "hr" "employees" 1 none).data
           = jsSlice (keptRows c9Store "hr" "employees" none) ((1 - 1) * PAGE_SIZE) (1 * PAGE_SIZE) ∧
       (1 > (getData c9Store "hr" "employees" 1 none).total_pages →
         (getData c9Store "hr" "employees" 1 none).data = [] ∧
         (getData c9Store "hr" "employees" 1 none).row_count = 0 ∧
         (getData c9Store "hr" "employees" 1 none).total_rows
             = (keptRows c9Store "hr" "employees" none).length)) :=
  ⟨by decide, C3_getData_pagination c9Store "hr" "employees" 1 none (by decide)⟩

/-- C5: with a non-empty filter text, Query (getData) works on exactly
the subsequence of the stored rows in which a row is kept iff some field
value, stringified and lower-cased, contains the lower-cased filter text
as a substring (RowKeeps); being a filter of the stored list, the kept
rows stay in their original relative order (Sublist). -/
theorem C5_getData_filter :
    ∀ (store : TablesData) (schemaName tableName : String) (page : Nat) (clause : String),
      clause ≠ "" →
      (getData store schemaName tableName page (some clause)).total_rows
          = (((storeGet store (schemaName ++ "." ++ tableName)).getD []).filter
              (fun r => decide (RowKeeps clause r))).length ∧
      (getData store schemaName tableName page (some clause)).data
          = jsSlice (((storeGet store (schemaName ++ "." ++ tableName)).getD []).filter
                (fun r => decide (RowKeeps clause r)))
              ((page - 1) * PAGE_SIZE) ((page - 1) * PAGE_SIZE + PAGE_SIZE) ∧
      (((storeGet store (schemaName ++ "." ++ tableName)).getD []).filter
            (fun r => decide (RowKeeps clause r))).Sublist
          ((storeGet store (schemaName ++ "." ++ tableName)).getD []) := by
  intro store s t page clause h
  have hc : (clause == "") = false := by
    simp [h]
  have hkept : keptRows store s t (some clause)
      = ((storeGet store (s ++ "." ++ t)).getD []).filter
          (fun r => decide (RowKeeps clause r)) := by
    unfold keptRows
    dsimp only
    rw [hc, if_neg Bool.false_ne_true]
    exact (List.filter_congr (fun r _ => (decide_rowKeeps clause r).symm))
  refine ⟨?_, ?_, List.filter_sublist _⟩
  · show (keptRows store s t (some clause)).length = _
    rw [hkept]
  · show jsSlice (keptRows store s t (some clause)) _ _ = _
    rw [hkept]

/-- C5 witness: filter "hel" on a two-row table keeps only the row whose
value "Hello" contains it case-insensitively. -/
theorem C5_getData_filter_witness :
    ("hel" : String) ≠ "" ∧
      ((getData [("s.t", [[("a", Value.str "Hello")], [("a", Value.str "world")]])]
            "s" "t" 1 (some "hel")).total_rows
          = (((storeGet [("s.t", [[("a", Value.str "Hello")], [("a", Value.str "world")]])]
                ("s" ++ "." ++ "t")).getD []).filter
              (fun r => decide (RowKeeps "hel" r))).length ∧
       (getData [("s.t", [[("a", Value.str "Hello")], [("a", Value.str "world")]])]
            "s" "t" 1 (some "hel")).data
          = jsSlice (((storeGet [("s.t", [[("a", Value.str "Hello")], [("a", Value.str "world")]])]
                  ("s" ++ "." ++ "t")).getD []).filter
                (fun r => decide (RowKeeps "hel" r)))
              ((1 - 1) * PAGE_SIZE) ((1 - 1) * PAGE_SIZE + PAGE_SIZE) ∧
       (((storeGet [("s.t", [[("a", Value.str "Hello")], [("a", Value.str "world")]])]
              ("s" ++ "." ++ "t")).getD []).filter
            (fun r => decide (RowKeeps "hel" r))).Sublist
          ((storeGet [("s.t", [[("a", Value.str "Hello")], [("a", Value.str "world")]])]
              ("s" ++ "." ++ "t")).getD [])) :=
  ⟨by decide,
    C5_getData_filter [("s.t", [[("a", Value.str "Hello")], [("a", Value.str "world")]])]
      "s" "t" 1 "hel" (by decide)⟩

/-- C7: AccessibleSchemas (getAccessibleSchemas) returns the empty
sequence when the user has no group (in the code's falsy sense: absent
or zero group_id, cf. C10), and otherwise a duplicate-free,
lexicographically ascending sorted sequence whose members are exactly
the schema_name values of the permission records with the user's
group_id. -/
theorem C7_getAccessibleSchemas_spec :
    ∀ (perms : List SchemaPermission) (user : User),
      ((user.group_id = none ∨ user.group_id = some 0) →
        getAccessibleSchemas perms user = []) ∧
      (∀ g, user.group_id = some g → g ≠ 0 →
        (getAccessibleSchemas perms user).Nodup ∧
        List.Sorted (· ≤ ·) (getAccessibleSchemas perms user) ∧
        (∀ nm, nm ∈ getAccessibleSchemas perms user ↔
          ∃ p ∈ perms, p.group_id = g ∧ p.schema_name = nm)) := by
  intro perms u
  constructor
  · rintro (h | h) <;> simp [getAccessibleSchemas, h]
  · intro g hg h0
    have hfun : getAccessibleSchemas perms u
        = List.insertionSort strLe
            (dedupFirst ((perms.filter (fun p => p.group_id == g)).map (·.schema_name))) := by
      unfold getAccessibleSchemas
      rw [hg]
      dsimp only
      rw [if_neg h0]
    rw [hfun]
    have hperm := List.perm_insertionSort strLe
      (dedupFirst ((perms.filter (fun p => p.group_id == g)).map (·.schema_name)))
    refine ⟨hperm.symm.nodup (nodup_dedupFirst _), ?_, ?_⟩
    · exact (List.sorted_insertionSort strLe _).imp (fun hab => (strLe_iff_le _ _).mp hab)
    · intro nm
      rw [hperm.mem_iff, mem_dedupFirst, List.mem_map]
      constructor
      · rintro ⟨p, hp, rfl⟩
        rw [List.mem_filter] at hp
        exact ⟨p, hp.1, by simpa using hp.2, rfl⟩
      · rintro ⟨p, hp, hpg, rfl⟩
        exact ⟨p, List.mem_filter.mpr ⟨hp, by simp [hpg]⟩, rfl⟩

/-- C7 witness at the mock permission store and the group-2 analyst. -/
theorem C7_getAccessibleSchemas_spec_witness :
    analystUser.group_id = some 2 ∧ (2 : Nat) ≠ 0 ∧
      ((getAccessibleSchemas MOCK_PERMISSIONS analystUser).Nodup ∧
       List.Sorted (· ≤ ·) (getAccessibleSchemas MOCK_PERMISSIONS analystUser) ∧
       (∀ nm, nm ∈ getAccessibleSchemas MOCK_PERMISSIONS analystUser ↔
         ∃ p ∈ MOCK_PERMISSIONS, p.group_id = 2 ∧ p.schema_name = nm)) :=
  ⟨rfl, by decide,
    (C7_getAccessibleSchemas_spec MOCK_PERMISSIONS analystUser).2 2 rfl (by decide)⟩

/-- C4: the Filter Validator (validateWhereClause) rejects a string iff
it is non-empty and either contains one of the literal substrings ";",
"--", "/*" anywhere, or contains one of the forbidden SQL keywords as a
case-insensitive whole word (WordOccurs); in particular the empty string
is accepted, "DROP" in any case is rejected, and "dropdown" is
accepted. -/
theorem C4_validateWhereClause_iff :
    (∀ clause : String,
        (validateWhereClause clause).isValid = false ↔
          clause ≠ "" ∧
            ((∃ pat ∈ SQL_COMMENT_PATTERNS, ∃ a b, clause.data = a ++ pat.data ++ b) ∨
             (∃ kw ∈ FORBIDDEN_SQL_KEYWORDS, WordOccurs kw.data clause.data))) ∧
      (validateWhereClause "").isValid = true ∧
      (validateWhereClause "DROP").isValid = false ∧
      (validateWhereClause "drop").isValid = false ∧
      (validateWhereClause "DrOp").isValid = false ∧
      (validateWhereClause "dropdown").isValid = true := by
  refine ⟨?_, by decide, by decide, by decide, by decide, by decide⟩
  intro clause
  by_cases h : clause = ""
  · subst h
    simp [validateWhereClause]
  · unfold validateWhereClause
    have hcb : (clause == "") = false := by simp [h]
    rw [hcb, if_neg Bool.false_ne_true]
    cases hf : SQL_COMMENT_PATTERNS.find? (fun pat => containsPat pat.data clause.data) with
    | some pat =>
      dsimp only
      constructor
      · intro _
        refine ⟨h, Or.inl ?_⟩
        have hsome : (SQL_COMMENT_PATTERNS.find?
            (fun pat => containsPat pat.data clause.data)).isSome = true := by
          rw [hf]
          rfl
        obtain ⟨pat', hmem, hcp⟩ := List.find?_isSome.mp hsome
        exact ⟨pat', hmem, (containsPat_iff _ _).mp hcp⟩
      · intro _
        rfl
    | none =>
      dsimp only
      rw [List.find?_eq_none] at hf
      cases hk : FORBIDDEN_SQL_KEYWORDS.any (fun kw => hasWordCI kw.data clause.data) with
      | true =>
        rw [if_pos rfl]
        constructor
        · intro _
          refine ⟨h, Or.inr ?_⟩
          obtain ⟨kw, hmem, hw⟩ := List.any_eq_true.mp hk
          exact ⟨kw, hmem, (hasWordCI_iff _ _).mp hw⟩
        · intro _
          rfl
      | false =>
        rw [if_neg Bool.false_ne_true]
        constructor
        · intro hv
          simp at hv
        · rintro ⟨-, hor | hor⟩
          · obtain ⟨pat, hmem, a, b, hab⟩ := hor
            have hnc := hf pat hmem
            rw [(containsPat_iff pat.data clause.data).mpr ⟨a, b, hab⟩] at hnc
            exact absurd rfl hnc
          · obtain ⟨kw, hmem, hw⟩ := hor
            have hall := List.any_eq_false.mp hk kw hmem
            exact absurd ((hasWordCI_iff _ _).mpr hw) hall

end DataBrowser
